import Mathlib

/-!
Verification of the retrograde-period extraction core of the
earth-retrograde repository.

Shallow embedding of:
- `retrograde_calculator.py`: `RetrogradeFinder.is_retrograde` (lines 78-91),
  the transition scan inside `RetrogradeFinder.find_retrograde_periods`
  (lines 147-174, which drops a run still open at chunk end), and the
  `average_per_year` statistic of `calculate_all_retrogrades` (line 205);
- `retrograde_calculator_1950_2050.py`: `EarthRetrogradeFinder.is_earth_retrograde`
  (lines 73-78) and the scan inside `find_earth_retrograde_periods`
  (lines 129-147), embedded independently of the first copy;
- `generate_test_data.py` `main` (lines 76-106): the same scan followed by a
  close-at-series-end step that emits a still-open run with `times[-1]`.

Angles and timestamps are rationals, sample series are lists.  Intervals are
first produced as pairs of sample indices (`start_idx`, `i`) and then mapped
to timestamps exactly as the source maps `times[start_idx]` / `times[i]`.
-/

/-- `np.diff`: differences of consecutive list elements. -/
def diffs : List ℚ → List ℚ
  | a :: b :: rest => (b - a) :: diffs (b :: rest)
  | _ => []

/-- First wraparound pass of `RetrogradeFinder.is_retrograde`:
`diffs[diffs > 180] -= 360`. -/
def normStep1 (d : ℚ) : ℚ := if 180 < d then d - 360 else d

/-- Second wraparound pass, applied to the already-adjusted value:
`diffs[diffs < -180] += 360`. -/
def normStep2 (d : ℚ) : ℚ := if d < -180 then d + 360 else d

/-- `RetrogradeFinder.is_retrograde` (retrograde_calculator.py lines 78-91):
normalize the consecutive differences for the 0/360 wraparound, then flag the
strictly negative ones as retrograde. -/
def is_retrograde (lons : List ℚ) : List Bool :=
  (diffs lons).map fun d => decide (normStep2 (normStep1 d) < 0)

/-- State of the transition scan: the `in_retrograde` flag and the last
recorded `start_idx` (initially `None`). -/
structure ScanState where
  inRetro : Bool
  startIdx : Option Nat

/-- The transition scan of `RetrogradeFinder.find_retrograde_periods`
(lines 147-169): enumerate the flags from index `i`; on a false-to-true
transition record `start_idx = i`; on a true-to-false transition emit
`(start_idx, i)` (guarded by `start_idx is not None`) and clear the flag.
Returns the emitted index pairs and the final loop state. -/
def scanFlags (s : ScanState) (i : Nat) : List Bool → List (Nat × Nat) × ScanState
  | [] => ([], s)
  | b :: rest =>
    if b && !s.inRetro then
      scanFlags ⟨true, some i⟩ (i + 1) rest
    else if !b && s.inRetro then
      match s.startIdx with
      | some k =>
        let r := scanFlags ⟨false, some k⟩ (i + 1) rest
        ((k, i) :: r.1, r.2)
      | none => scanFlags ⟨false, none⟩ (i + 1) rest
    else
      scanFlags s (i + 1) rest

/-- Initial loop state: `in_retrograde = False`, `start_idx = None`. -/
def initState : ScanState := ⟨false, none⟩

/-- One chunk of `RetrogradeFinder.find_retrograde_periods`: the scan over the
flag list; a run still open at the end of the chunk is dropped (lines 171-174
are a `pass`). -/
def find_retrograde_periods_chunk (lons : List ℚ) : List (Nat × Nat) :=
  (scanFlags initState 0 (is_retrograde lons)).1

/-- The close-at-series-end step of `generate_test_data.py` (lines 99-106):
if a run is still open after the scan, emit it with the last sample's index. -/
def finalClose (s : ScanState) (n : Nat) : List (Nat × Nat) :=
  if s.inRetro then
    match s.startIdx with
    | some k => [(k, n)]
    | none => []
  else []

/-- Full-series one-pass extraction of `generate_test_data.py` `main`
(lines 81-106): the transition scan followed by the close-at-series-end step
using index `len(times) - 1`.  From `initState` the scan never reaches
`inRetro = true` with `startIdx = none`, so the slightly different loop guard
of generate_test_data.py (`elif not is_retro and in_retro and start_idx is
not None`) agrees with `scanFlags` on every reachable state. -/
def onePassExtract (lons : List ℚ) : List (Nat × Nat) :=
  find_retrograde_periods_chunk lons ++
    finalClose (scanFlags initState 0 (is_retrograde lons)).2 (lons.length - 1)

/-- Map emitted index pairs to `(start timestamp, end timestamp)`, as the
source does with `times[start_idx]` and `times[i]`. -/
def toIntervals (ts : List ℚ) (ps : List (Nat × Nat)) : List (ℚ × ℚ) :=
  ps.map fun p => (ts.getD p.1 0, ts.getD p.2 0)

/-- First wraparound pass of `EarthRetrogradeFinder.is_earth_retrograde`
(retrograde_calculator_1950_2050.py line 76), embedded independently. -/
def normStep1E (d : ℚ) : ℚ := if 180 < d then d - 360 else d

/-- Second wraparound pass of `EarthRetrogradeFinder.is_earth_retrograde`
(line 77), embedded independently. -/
def normStep2E (d : ℚ) : ℚ := if d < -180 then d + 360 else d

/-- `EarthRetrogradeFinder.is_earth_retrograde`
(retrograde_calculator_1950_2050.py lines 73-78), embedded independently of
`is_retrograde`. -/
def is_earth_retrograde (lons : List ℚ) : List Bool :=
  (diffs lons).map fun d => decide (normStep2E (normStep1E d) < 0)

/-- The transition scan of `EarthRetrogradeFinder.find_earth_retrograde_periods`
(retrograde_calculator_1950_2050.py lines 129-147), embedded independently of
`scanFlags`. -/
def scanFlagsE (s : ScanState) (i : Nat) : List Bool → List (Nat × Nat) × ScanState
  | [] => ([], s)
  | b :: rest =>
    if b && !s.inRetro then
      scanFlagsE ⟨true, some i⟩ (i + 1) rest
    else if !b && s.inRetro then
      match s.startIdx with
      | some k =>
        let r := scanFlagsE ⟨false, some k⟩ (i + 1) rest
        ((k, i) :: r.1, r.2)
      | none => scanFlagsE ⟨false, none⟩ (i + 1) rest
    else
      scanFlagsE s (i + 1) rest

/-- One chunk of `EarthRetrogradeFinder.find_earth_retrograde_periods`: the
scan over the flags; an open run at chunk end is likewise dropped. -/
def find_earth_retrograde_periods_chunk (lons : List ℚ) : List (Nat × Nat) :=
  (scanFlagsE ⟨false, none⟩ 0 (is_earth_retrograde lons)).1

/-- `average_per_year` as computed by `calculate_all_retrogrades`
(retrograde_calculator.py line 205):
`len(periods) / years if periods else 0`.  `none` models the
`ZeroDivisionError` Python would raise on a nonempty list with a zero range. -/
def average_per_year (periods : List (ℚ × ℚ)) (years : ℚ) : Option ℚ :=
  if periods.isEmpty then some 0
  else if years = 0 then none
  else some ((periods.length : ℚ) / years)

/-- A chunk is a time array paired with the matching longitude array; its
intervals are the chunk scan mapped to the chunk's timestamps. -/
def chunkIntervals (c : List ℚ × List ℚ) : List (ℚ × ℚ) :=
  toIntervals c.1 (find_retrograde_periods_chunk c.2)

/-- Accumulation of `periods` across successive chunks, in chunk order, as the
chunk loop of `find_retrograde_periods` appends them into one per-body list. -/
def processChunks : List (List ℚ × List ℚ) → List (ℚ × ℚ)
  | [] => []
  | c :: rest => chunkIntervals c ++ processChunks rest

/-- The spec's wording of the circular normalization (§4.1 step 2): if
`delta > 180` subtract 360, if `delta < -180` add 360. -/
def spec_norm (d : ℚ) : ℚ :=
  if 180 < d then d - 360 else if d < -180 then d + 360 else d

/-- Modelled from the spec: state of the §4.1 step 6 carry-forward windowed
extraction, which no source file implements (the chunk loops drop an open
run).  It keeps the intervals emitted so far, the open-run scan state carried
across window seams, the global delta index, and the last sample seen so far,
so the next window is scanned "as if it were a continuation of the same
series". -/
structure CarryState where
  emitted : List (Nat × Nat)
  scan : ScanState
  idx : Nat
  prev : Option ℚ

/-- Modelled from the spec: feed one window into the carried scanner.  The
window's flags are classified over the carried previous sample followed by the
window's samples, so the seam pair is classified exactly as in the full
series, and the scan resumes from the carried state and global index. -/
def carryStep (a : CarryState) (w : List ℚ) : CarryState :=
  let flags := is_retrograde (match a.prev with | some x => x :: w | none => w)
  let r := scanFlags a.scan a.idx flags
  { emitted := a.emitted ++ r.1
    scan := r.2
    idx := a.idx + flags.length
    prev := match w.getLast? with | some b => some b | none => a.prev }

/-- Modelled from the spec: process consecutive zero-overlap windows in
timestamp order under the §4.1 step 6 carry-forward boundary policy, closing a
still-open run only at the absolute end of the requested range. -/
def carryForwardWindows (ws : List (List ℚ)) : List (Nat × Nat) :=
  let a := ws.foldl carryStep ⟨[], initState, 0, none⟩
  a.emitted ++ finalClose a.scan a.idx

/-- Concatenation of consecutive windows: the full series they split. -/
def joinAll : List (List ℚ) → List ℚ
  | [] => []
  | w :: ws => w ++ joinAll ws

/-- Emitted index pairs form an ordered, pairwise-disjoint chain above a lower
bound: each start is at least the bound, each start is before its end, and
each end is before the next start. -/
def ChainOK : Nat → List (Nat × Nat) → Prop
  | _, [] => True
  | lo, p :: rest => lo ≤ p.1 ∧ p.1 < p.2 ∧ ChainOK (p.2 + 1) rest

/-- The carry state reached after scanning a whole series in one go; the
invariant value of the windowed fold. -/
def mkCarry (xs : List ℚ) : CarryState :=
  ⟨(scanFlags initState 0 (is_retrograde xs)).1,
    (scanFlags initState 0 (is_retrograde xs)).2,
    (is_retrograde xs).length, xs.getLast?⟩

theorem diffs_length : ∀ l : List ℚ, (diffs l).length = l.length - 1
  | [] => rfl
  | [_] => rfl
  | a :: b :: rest => by
    have h := diffs_length (b :: rest)
    simp only [diffs, List.length_cons] at h ⊢
    omega

theorem is_retrograde_length (l : List ℚ) :
    (is_retrograde l).length = l.length - 1 := by
  simp [is_retrograde, diffs_length]

theorem diffs_append (l1 : List ℚ) (x : ℚ) (l2 : List ℚ) :
    diffs (l1 ++ x :: l2) = diffs (l1 ++ [x]) ++ diffs (x :: l2) := by
  induction l1 with
  | nil => simp [diffs]
  | cons a l1 ih =>
    cases l1 with
    | nil => simp [diffs]
    | cons c l1' =>
      simpa [diffs] using ih

theorem getLast?_append_cases (xs w : List ℚ) :
    (xs ++ w).getLast? =
      (match w.getLast? with | some b => some b | none => xs.getLast?) := by
  rcases (by simpa using w.eq_nil_or_concat : w = [] ∨ ∃ L b, w = L ++ [b]) with
    h | ⟨L, b, h⟩
  · subst h; simp
  · subst h
    rw [← List.append_assoc]
    simp

theorem is_retrograde_append (xs w : List ℚ) :
    is_retrograde (xs ++ w) =
      is_retrograde xs ++
        is_retrograde (match xs.getLast? with | some a => a :: w | none => w) := by
  rcases (by simpa using xs.eq_nil_or_concat : xs = [] ∨ ∃ L a, xs = L ++ [a]) with
    h | ⟨L, a, h⟩
  · subst h; simp [is_retrograde, diffs]
  · subst h
    have h1 : (L ++ [a]) ++ w = L ++ a :: w := by simp
    have h2 : (L ++ [a]).getLast? = some a := by simp
    rw [h1, h2]
    simp only [is_retrograde]
    rw [diffs_append, List.map_append]


theorem scanFlags_append (l1 : List Bool) (l2 : List Bool) :
    ∀ (s : ScanState) (i : Nat),
      scanFlags s i (l1 ++ l2) =
        ((scanFlags s i l1).1 ++
            (scanFlags (scanFlags s i l1).2 (i + l1.length) l2).1,
          (scanFlags (scanFlags s i l1).2 (i + l1.length) l2).2) := by
  induction l1 with
  | nil => intro s i; simp [scanFlags]
  | cons b l1 ih =>
    intro s i
    obtain ⟨r, idx⟩ := s
    cases b <;> cases r
    · simp [scanFlags, ih, Nat.add_assoc, Nat.add_comm, Nat.add_left_comm]
    · cases idx with
      | some k =>
        simp [scanFlags, ih, Nat.add_assoc, Nat.add_comm, Nat.add_left_comm]
      | none =>
        simp [scanFlags, ih, Nat.add_assoc, Nat.add_comm, Nat.add_left_comm]
    · simp [scanFlags, ih, Nat.add_assoc, Nat.add_comm, Nat.add_left_comm]
    · simp [scanFlags, ih, Nat.add_assoc, Nat.add_comm, Nat.add_left_comm]

theorem carryStep_mkCarry (xs w : List ℚ) :
    carryStep (mkCarry xs) w = mkCarry (xs ++ w) := by
  simp only [carryStep, mkCarry]
  have happ := scanFlags_append (is_retrograde xs)
    (is_retrograde (match xs.getLast? with | some a => a :: w | none => w))
    initState 0
  rw [is_retrograde_append xs w, happ]
  simp [getLast?_append_cases xs w]

theorem foldl_carryStep (ws : List (List ℚ)) :
    ∀ xs : List ℚ, ws.foldl carryStep (mkCarry xs) = mkCarry (xs ++ joinAll ws) := by
  induction ws with
  | nil => intro xs; simp [joinAll]
  | cons w ws ih =>
    intro xs
    simp only [List.foldl_cons, joinAll, carryStep_mkCarry]
    rw [ih (xs ++ w), List.append_assoc]

theorem mkCarry_nil : mkCarry [] = ⟨[], initState, 0, none⟩ := rfl

/-- Claim C1: splitting an ordered series into consecutive zero-overlap
windows processed in strict order under the carry-forward boundary policy
(open runs carried across seams, closed only at the absolute end of the range)
produces exactly the interval list of processing the full series in one pass,
both as index pairs and after mapping to timestamps; nothing is dropped or
double-counted at a window seam. -/
theorem claim_C1 : ∀ ws : List (List ℚ),
    carryForwardWindows ws = onePassExtract (joinAll ws) ∧
    ∀ ts : List ℚ, toIntervals ts (carryForwardWindows ws) =
      toIntervals ts (onePassExtract (joinAll ws)) := by
  have key : ∀ ws : List (List ℚ),
      carryForwardWindows ws = onePassExtract (joinAll ws) := by
    intro ws
    have h := foldl_carryStep ws []
    rw [List.nil_append] at h
    simp only [carryForwardWindows, mkCarry_nil.symm, h]
    simp only [mkCarry, onePassExtract, find_retrograde_periods_chunk]
    rw [is_retrograde_length]
  intro ws
  exact ⟨key ws, fun ts => by rw [key ws]⟩

theorem normSteps_eq_spec_norm (d : ℚ) : normStep2 (normStep1 d) = spec_norm d := by
  simp only [normStep1, normStep2, spec_norm]
  split_ifs <;> linarith

theorem scanFlagsE_eq (l : List Bool) :
    ∀ (s : ScanState) (i : Nat), scanFlagsE s i l = scanFlags s i l := by
  induction l with
  | nil => intro s i; rfl
  | cons b rest ih =>
    intro s i
    obtain ⟨r, idx⟩ := s
    cases b <;> cases r
    · simp [scanFlags, scanFlagsE, ih]
    · cases idx <;> simp [scanFlags, scanFlagsE, ih]
    · simp [scanFlags, scanFlagsE, ih]
    · simp [scanFlags, scanFlagsE, ih]

theorem is_earth_retrograde_eq (lons : List ℚ) :
    is_earth_retrograde lons = is_retrograde lons := rfl

theorem eval_flags_basic :
    is_retrograde [10, 12, 11, 9, 8, 10, 13] =
      [false, true, true, true, false, false] := by
  norm_num [is_retrograde, diffs, normStep1, normStep2]

theorem eval_chunk_basic :
    find_retrograde_periods_chunk [10, 12, 11, 9, 8, 10, 13] = [(1, 4)] := by
  rw [find_retrograde_periods_chunk, eval_flags_basic]
  rfl

theorem eval_flags_open : is_retrograde [10, 8, 6] = [true, true] := by
  norm_num [is_retrograde, diffs, normStep1, normStep2]

theorem eval_onePass_open : onePassExtract [10, 8, 6] = [(0, 2)] := by
  rw [onePassExtract, find_retrograde_periods_chunk, eval_flags_open]
  rfl

theorem eval_flags_wrap : is_retrograde [350, 355, 2, 8] = [false, false, false] := by
  norm_num [is_retrograde, diffs, normStep1, normStep2]

/-- Claim C3: a sample pair is classified retrograde iff the circularly
normalized delta (subtract 360 above 180, add 360 below -180) is strictly
negative; a delta of exactly 0 is non-retrograde; and the wraparound series
350, 355, 2, 8 normalizes to deltas 5, 7, 6 with no retrograde flag. -/
theorem claim_C3 :
    (∀ lons : List ℚ,
        is_retrograde lons = (diffs lons).map fun d => decide (spec_norm d < 0)) ∧
    decide (normStep2 (normStep1 (0 : ℚ)) < 0) = false ∧
    (diffs [350, 355, 2, 8]).map spec_norm = [5, 7, 6] ∧
    is_retrograde [350, 355, 2, 8] = [false, false, false] := by
  refine ⟨?_, ?_, ?_, eval_flags_wrap⟩
  · intro lons
    have hf : (fun d : ℚ => decide (normStep2 (normStep1 d) < 0)) =
        fun d => decide (spec_norm d < 0) := by
      funext d
      rw [normSteps_eq_spec_norm]
    rw [is_retrograde, hf]
  · norm_num [normStep1, normStep2]
  · norm_num [diffs, spec_norm]

/-- Claim C7: the per-body average-per-year statistic equals
`count / total_years_in_range` for the ranges the program uses (20000 and 100
years), and it is exactly 0 (not an error value) when there are no intervals,
for any year range. -/
theorem claim_C7 : ∀ (ps : List (ℚ × ℚ)) (y : ℚ),
    average_per_year ps 20000 = some ((ps.length : ℚ) / 20000) ∧
    average_per_year ps 100 = some ((ps.length : ℚ) / 100) ∧
    (ps = [] → average_per_year ps y = some 0) ∧
    (y ≠ 0 → average_per_year ps y = some ((ps.length : ℚ) / y)) := by
  intro ps y
  cases ps with
  | nil =>
    refine ⟨?_, ?_, fun _ => rfl, fun _ => ?_⟩ <;> simp [average_per_year]
  | cons p ps =>
    refine ⟨?_, ?_, fun h => by simp at h, fun hy => ?_⟩
    · simp [average_per_year]
    · simp [average_per_year]
    · simp [average_per_year, hy]

/-- Witness for claim C7 at concrete inputs: the empty list over a 1-year
range averages to 0, and one interval over a 2-year range averages to 1/2. -/
theorem claim_C7_witness :
    average_per_year [] 1 = some 0 ∧
      average_per_year [((0 : ℚ), (1 : ℚ))] 2 = some ((1 : ℚ) / 2) := by
  constructor
  · exact (claim_C7 [] 1).2.2.1 rfl
  · have h := (claim_C7 [((0 : ℚ), (1 : ℚ))] 2).2.2.2 (by norm_num)
    simpa using h

/-- Claim C8: an input series with fewer than 2 samples yields an empty
interval list, both for the chunk scan and for the one-pass extraction. -/
theorem claim_C8 : ∀ lons : List ℚ, lons.length < 2 →
    find_retrograde_periods_chunk lons = [] ∧ onePassExtract lons = [] := by
  intro lons h
  rcases lons with _ | ⟨a, _ | ⟨b, rest⟩⟩
  · exact ⟨rfl, rfl⟩
  · exact ⟨rfl, rfl⟩
  · simp only [List.length_cons] at h
    omega

/-- Witness for claim C8: a one-sample series produces no intervals. -/
theorem claim_C8_witness :
    find_retrograde_periods_chunk [(5 : ℚ)] = [] ∧ onePassExtract [(5 : ℚ)] = [] :=
  claim_C8 [(5 : ℚ)] (by norm_num)

/-- Claim C9: the extractor is deterministic; two runs of the extraction on
the same input produce identical interval lists, and the independently
duplicated implementation in retrograde_calculator_1950_2050.py computes the
same function as the one in retrograde_calculator.py. -/
theorem claim_C9 : ∀ (ts lons : List ℚ),
    toIntervals ts (find_retrograde_periods_chunk lons) =
      toIntervals ts (find_retrograde_periods_chunk lons) ∧
    find_earth_retrograde_periods_chunk lons = find_retrograde_periods_chunk lons := by
  intro ts lons
  refine ⟨rfl, ?_⟩
  rw [find_earth_retrograde_periods_chunk, find_retrograde_periods_chunk,
    is_earth_retrograde_eq, scanFlagsE_eq]
  rfl

/-- Claim C2: when a retrograde run is still open at the end of a series
processed in one full pass, the one-pass extractor emits a final interval
ending at the last sample's index (hence the last sample's timestamp); for
longitudes 10, 8, 6 it emits exactly the interval from sample 0 to sample 2. -/
theorem claim_C2 :
    (∀ (lons : List ℚ) (k : Nat),
        (scanFlags initState 0 (is_retrograde lons)).2.inRetro = true →
        (scanFlags initState 0 (is_retrograde lons)).2.startIdx = some k →
        onePassExtract lons =
          find_retrograde_periods_chunk lons ++ [(k, lons.length - 1)]) ∧
    onePassExtract [10, 8, 6] = [(0, 2)] ∧
    ∀ ts : List ℚ, toIntervals ts (onePassExtract [10, 8, 6]) =
      [(ts.getD 0 0, ts.getD 2 0)] := by
  refine ⟨?_, eval_onePass_open, ?_⟩
  · intro lons k h1 h2
    rw [onePassExtract, finalClose, h1, h2]
    simp
  · intro ts
    rw [eval_onePass_open]
    rfl

/-- Witness for claim C2 at longitudes 10, 8, 6: the run open at series end
is emitted as a final interval ending at the last sample index 2. -/
theorem claim_C2_witness :
    onePassExtract [10, 8, 6] =
      find_retrograde_periods_chunk [10, 8, 6] ++ [(0, 2)] := by
  have h1 : (scanFlags initState 0 (is_retrograde [10, 8, 6])).2.inRetro = true := by
    rw [eval_flags_open]
    rfl
  have h2 : (scanFlags initState 0 (is_retrograde [10, 8, 6])).2.startIdx = some 0 := by
    rw [eval_flags_open]
    rfl
  exact claim_C2.1 [10, 8, 6] 0 h1 h2

theorem scan_chain (l : List Bool) :
    ∀ (s : ScanState) (i lo : Nat),
      (s.inRetro = false → lo ≤ i) →
      (s.inRetro = true → ∃ k, s.startIdx = some k ∧ lo ≤ k ∧ k < i) →
      ChainOK lo
          ((scanFlags s i l).1 ++ finalClose (scanFlags s i l).2 (i + l.length)) ∧
        ∀ p ∈ (scanFlags s i l).1, p.2 < i + l.length := by
  induction l with
  | nil =>
    intro s i lo hF hT
    obtain ⟨r, idx⟩ := s
    cases r
    · simp [scanFlags, finalClose, ChainOK]
    · obtain ⟨k, hk1, hk2, hk3⟩ := hT rfl
      simp only at hk1
      subst hk1
      simp only [scanFlags, finalClose, List.length_nil, Nat.add_zero]
      refine ⟨?_, by simp⟩
      simpa [ChainOK] using ⟨hk2, hk3⟩
  | cons b rest ih =>
    intro s i lo hF hT
    obtain ⟨r, idx⟩ := s
    have harith : i + (rest.length + 1) = (i + 1) + rest.length := by omega
    cases b <;> cases r
    · -- b = false, inRetro = false: no transition
      have hstep : scanFlags ⟨false, idx⟩ i (false :: rest) =
          scanFlags ⟨false, idx⟩ (i + 1) rest := by
        simp [scanFlags]
      have H := ih ⟨false, idx⟩ (i + 1) lo
        (fun _ => Nat.le_succ_of_le (hF rfl)) (fun h => by simp at h)
      rw [hstep, List.length_cons, harith]
      exact H
    · -- b = false, inRetro = true: true-to-false transition, emit
      obtain ⟨k, hk1, hk2, hk3⟩ := hT rfl
      simp only at hk1
      subst hk1
      have hstep : scanFlags ⟨true, some k⟩ i (false :: rest) =
          ((k, i) :: (scanFlags ⟨false, some k⟩ (i + 1) rest).1,
            (scanFlags ⟨false, some k⟩ (i + 1) rest).2) := by
        simp [scanFlags]
      have H := ih ⟨false, some k⟩ (i + 1) (i + 1)
        (fun _ => Nat.le_refl _) (fun h => by simp at h)
      rw [hstep, List.length_cons, harith]
      constructor
      · simp only [List.cons_append]
        show lo ≤ k ∧ k < i ∧ ChainOK (i + 1) _
        exact ⟨hk2, hk3, H.1⟩
      · intro p hp
        rcases List.mem_cons.mp hp with h | h
        · subst h; omega
        · exact Nat.lt_of_lt_of_le (H.2 p h) (Nat.le_refl _)
    · -- b = true, inRetro = false: false-to-true transition, record start
      have hstep : scanFlags ⟨false, idx⟩ i (true :: rest) =
          scanFlags ⟨true, some i⟩ (i + 1) rest := by
        simp [scanFlags]
      have H := ih ⟨true, some i⟩ (i + 1) lo
        (fun h => by simp at h) (fun _ => ⟨i, rfl, hF rfl, by omega⟩)
      rw [hstep, List.length_cons, harith]
      exact H
    · -- b = true, inRetro = true: run continues
      obtain ⟨k, hk1, hk2, hk3⟩ := hT rfl
      have hstep : scanFlags ⟨true, idx⟩ i (true :: rest) =
          scanFlags ⟨true, idx⟩ (i + 1) rest := by
        simp [scanFlags]
      have H := ih ⟨true, idx⟩ (i + 1) lo
        (fun h => by simp at h) (fun _ => ⟨k, hk1, hk2, by omega⟩)
      rw [hstep, List.length_cons, harith]
      exact H

theorem chainOK_mem : ∀ (ps : List (Nat × Nat)) (lo : Nat), ChainOK lo ps →
    ∀ p ∈ ps, lo ≤ p.1 ∧ p.1 < p.2
  | [], _, _, p, hp => absurd hp (List.not_mem_nil p)
  | q :: rest, lo, h, p, hp => by
    obtain ⟨h1, h2, h3⟩ := h
    rcases List.mem_cons.mp hp with hh | hh
    · subst hh; exact ⟨h1, h2⟩
    · have := chainOK_mem rest (q.2 + 1) h3 p hh
      exact ⟨by omega, this.2⟩

theorem chainOK_chain_ends : ∀ (ps : List (Nat × Nat)) (lo : Nat), ChainOK lo ps →
    List.Chain' (fun p q : Nat × Nat => p.2 < q.1) ps
  | [], _, _ => List.chain'_nil
  | [_], _, _ => by simp
  | p :: q :: rest, lo, h => by
    obtain ⟨h1, h2, h3⟩ := h
    have hq := chainOK_mem (q :: rest) (p.2 + 1) h3 q (List.mem_cons_self q rest)
    exact List.Chain'.cons (by omega) (chainOK_chain_ends (q :: rest) (p.2 + 1) h3)

theorem chainOK_chain_starts : ∀ (ps : List (Nat × Nat)) (lo : Nat), ChainOK lo ps →
    List.Chain' (fun p q : Nat × Nat => p.1 < q.1) ps
  | [], _, _ => List.chain'_nil
  | [_], _, _ => by simp
  | p :: q :: rest, lo, h => by
    obtain ⟨h1, h2, h3⟩ := h
    have hq := chainOK_mem (q :: rest) (p.2 + 1) h3 q (List.mem_cons_self q rest)
    exact List.Chain'.cons (by omega) (chainOK_chain_starts (q :: rest) (p.2 + 1) h3)

theorem chainOK_append_left : ∀ (xs ys : List (Nat × Nat)) (lo : Nat),
    ChainOK lo (xs ++ ys) → ChainOK lo xs
  | [], _, _, _ => trivial
  | p :: xs, ys, lo, h => by
    obtain ⟨h1, h2, h3⟩ := h
    exact ⟨h1, h2, chainOK_append_left xs ys (p.2 + 1) h3⟩

theorem mem_finalClose (s : ScanState) (n : Nat) (p : Nat × Nat)
    (hp : p ∈ finalClose s n) : p.2 = n := by
  obtain ⟨r, idx⟩ := s
  cases r
  · simp [finalClose] at hp
  · cases idx with
    | none => simp [finalClose] at hp
    | some k =>
      simp only [finalClose, if_true] at hp
      rcases List.mem_singleton.mp hp with h
      rw [h]

theorem onePass_chainOK (lons : List ℚ) :
    ChainOK 0 (onePassExtract lons) ∧
      ∀ p ∈ onePassExtract lons, p.2 ≤ (is_retrograde lons).length := by
  have H := scan_chain (is_retrograde lons) initState 0 0
    (fun _ => Nat.le_refl 0) (fun h => by simp [initState] at h)
  simp only [Nat.zero_add] at H
  constructor
  · have h1 := H.1
    rw [is_retrograde_length] at h1
    exact h1
  · intro p hp
    rcases List.mem_append.mp hp with h | h
    · exact Nat.le_of_lt (H.2 p h)
    · have := mem_finalClose _ _ p h
      rw [is_retrograde_length]
      omega

theorem chunk_chainOK (lons : List ℚ) :
    ChainOK 0 (find_retrograde_periods_chunk lons) ∧
      ∀ p ∈ find_retrograde_periods_chunk lons, p.2 < (is_retrograde lons).length := by
  have H := scan_chain (is_retrograde lons) initState 0 0
    (fun _ => Nat.le_refl 0) (fun h => by simp [initState] at h)
  simp only [Nat.zero_add] at H
  exact ⟨chainOK_append_left _ _ _ H.1, H.2⟩

theorem getD_mem_of_lt : ∀ (l : List ℚ) (n : Nat), n < l.length → l.getD n 0 ∈ l
  | [], n, h => absurd h (by simp)
  | a :: t, 0, _ => by simp
  | a :: t, n + 1, h => by
    simp only [List.getD_cons_succ]
    exact List.mem_cons_of_mem a (getD_mem_of_lt t n (by simpa using h))

theorem pairwise_getD_lt : ∀ (l : List ℚ), List.Pairwise (· < ·) l →
    ∀ i j, i < j → j < l.length → l.getD i 0 < l.getD j 0
  | [], _, _, j, _, hj => absurd hj (by simp)
  | a :: t, h, 0, 0, hij, _ => absurd hij (by omega)
  | a :: t, h, 0, m + 1, _, hj => by
    obtain ⟨ha, _⟩ := List.pairwise_cons.mp h
    simp only [List.getD_cons_zero, List.getD_cons_succ]
    exact ha _ (getD_mem_of_lt t m (by simpa using hj))
  | a :: t, h, n + 1, 0, hij, _ => absurd hij (by omega)
  | a :: t, h, n + 1, m + 1, hij, hj => by
    obtain ⟨_, ht⟩ := List.pairwise_cons.mp h
    simp only [List.getD_cons_succ]
    exact pairwise_getD_lt t ht n m (by omega) (by simpa using hj)

theorem chain'_map_mem {α β : Type} (R : α → α → Prop) (S : β → β → Prop)
    (f : α → β) :
    ∀ l : List α, (∀ a ∈ l, ∀ b ∈ l, R a b → S (f a) (f b)) →
      List.Chain' R l → List.Chain' S (l.map f)
  | [], _, _ => by simp
  | [_], _, _ => by simp
  | a :: b :: t, hmem, hc => by
    rw [List.map_cons, List.map_cons]
    obtain ⟨hab, hbt⟩ := List.chain'_cons.mp hc
    refine List.Chain'.cons (hmem a (by simp) b (by simp) hab) ?_
    have := chain'_map_mem R S f (b :: t)
      (fun x hx y hy => hmem x (List.mem_cons_of_mem a hx) y (List.mem_cons_of_mem a hy))
      hbt
    simpa using this

/-- Claim C10: for strictly increasing timestamps, the intervals of a single
full pass are pairwise disjoint; each emitted end timestamp is strictly below
the next emitted start timestamp. -/
theorem claim_C10 : ∀ (ts lons : List ℚ), List.Pairwise (· < ·) ts →
    lons.length = ts.length →
    List.Chain' (fun u v : ℚ × ℚ => u.2 < v.1) (toIntervals ts (onePassExtract lons)) := by
  intro ts lons hts hlen
  have H := onePass_chainOK lons
  have hflag := is_retrograde_length lons
  rw [toIntervals]
  apply chain'_map_mem _ _ _ _ ?_ (chainOK_chain_ends _ _ H.1)
  intro p hp q hq hR
  have hp2 := H.2 p hp
  have hq2 := H.2 q hq
  have hqm := chainOK_mem _ _ H.1 q hq
  exact pairwise_getD_lt ts hts p.2 q.1 hR (by omega)

/-- Witness for claim C10 at timestamps 0..4 and longitudes 20, 21, 20, 21, 20:
the two emitted intervals are disjoint. -/
theorem claim_C10_witness :
    List.Chain' (fun u v : ℚ × ℚ => u.2 < v.1)
      (toIntervals [0, 1, 2, 3, 4] (onePassExtract [20, 21, 20, 21, 20])) :=
  claim_C10 [0, 1, 2, 3, 4] [20, 21, 20, 21, 20] (by decide) rfl

theorem chunkIntervals_mem (ts lons : List ℚ) (hlen : lons.length = ts.length) :
    ∀ u ∈ toIntervals ts (find_retrograde_periods_chunk lons), u.1 ∈ ts := by
  intro u hu
  obtain ⟨p, hp, rfl⟩ := List.mem_map.mp hu
  have hb := (chunk_chainOK lons).2 p hp
  have hm := chainOK_mem _ _ (chunk_chainOK lons).1 p hp
  have hflag := is_retrograde_length lons
  exact getD_mem_of_lt ts p.1 (by omega)

theorem chunkIntervals_chain (ts lons : List ℚ) (hts : List.Pairwise (· < ·) ts)
    (hlen : lons.length = ts.length) :
    List.Chain' (fun u v : ℚ × ℚ => u.1 ≤ v.1)
      (toIntervals ts (find_retrograde_periods_chunk lons)) := by
  have H := chunk_chainOK lons
  have hflag := is_retrograde_length lons
  rw [toIntervals]
  apply chain'_map_mem _ _ _ _ ?_ (chainOK_chain_starts _ _ H.1)
  intro p hp q hq hR
  have hq2 := H.2 q hq
  have hqm := chainOK_mem _ _ H.1 q hq
  exact le_of_lt (pairwise_getD_lt ts hts p.1 q.1 hR (by omega))

theorem processChunks_mem : ∀ (chs : List (List ℚ × List ℚ)),
    (∀ c ∈ chs, c.2.length = c.1.length) →
    ∀ u ∈ processChunks chs, ∃ d ∈ chs, u.1 ∈ d.1
  | [], _, u, hu => absurd hu (by simp [processChunks])
  | c :: rest, h, u, hu => by
    rcases List.mem_append.mp hu with hl | hr
    · exact ⟨c, List.mem_cons_self c rest,
        chunkIntervals_mem c.1 c.2 (h c (List.mem_cons_self c rest)) u hl⟩
    · obtain ⟨d, hd, hud⟩ := processChunks_mem rest
        (fun d hd => h d (List.mem_cons_of_mem c hd)) u hr
      exact ⟨d, List.mem_cons_of_mem c hd, hud⟩

/-- Claim C5: over time-ordered input, the intervals accumulated across
successive chunks into one per-body list appear in non-decreasing
start-timestamp order, so no downstream sorting is required. -/
theorem claim_C5 : ∀ chunks : List (List ℚ × List ℚ),
    (∀ c ∈ chunks, List.Pairwise (· < ·) c.1 ∧ c.2.length = c.1.length) →
    List.Pairwise (fun c d : List ℚ × List ℚ => ∀ x ∈ c.1, ∀ y ∈ d.1, x ≤ y) chunks →
    List.Chain' (fun u v : ℚ × ℚ => u.1 ≤ v.1) (processChunks chunks) := by
  intro chunks
  induction chunks with
  | nil => intro _ _; simp [processChunks]
  | cons c rest ih =>
    intro hper hpair
    obtain ⟨hcross, hrest⟩ := List.pairwise_cons.mp hpair
    have hc := hper c (List.mem_cons_self c rest)
    show List.Chain' _ (chunkIntervals c ++ processChunks rest)
    rw [List.chain'_append]
    refine ⟨chunkIntervals_chain c.1 c.2 hc.1 hc.2,
      ih (fun d hd => hper d (List.mem_cons_of_mem c hd)) hrest, ?_⟩
    intro x hx y hy
    obtain ⟨hne, hxeq⟩ := List.mem_getLast?_eq_getLast hx
    have hx' : x ∈ chunkIntervals c := hxeq ▸ List.getLast_mem hne
    have hy' : y ∈ processChunks rest := List.mem_of_mem_head? hy
    have hxm := chunkIntervals_mem c.1 c.2 hc.2 x hx'
    obtain ⟨d, hd, hym⟩ := processChunks_mem rest
      (fun d hd => (hper d (List.mem_cons_of_mem c hd)).2) y hy'
    exact hcross d hd x.1 hxm y.1 hym

/-- Witness for claim C5: two time-ordered chunks, each emitting two
intervals, accumulate into a list whose starts are non-decreasing. -/
theorem claim_C5_witness :
    List.Chain' (fun u v : ℚ × ℚ => u.1 ≤ v.1)
      (processChunks
        [([0, 1, 2, 3, 4], [20, 19, 20, 19, 20]),
         ([5, 6, 7, 8, 9], [30, 29, 30, 29, 30])]) :=
  claim_C5 _ (by decide) (by decide)

theorem getD_cons_sub (x : Bool) (xs : List Bool) (i m : Nat) (d : Bool)
    (hm : i + 1 ≤ m) : (x :: xs).getD (m - i) d = xs.getD (m - (i + 1)) d := by
  have h : m - i = (m - (i + 1)) + 1 := by omega
  rw [h, List.getD_cons_succ]

theorem getD_cons_self (x : Bool) (xs : List Bool) (i : Nat) (d : Bool) :
    (x :: xs).getD (i - i) d = x := by
  rw [Nat.sub_self, List.getD_cons_zero]

theorem scan_runs (l : List Bool) :
    ∀ (s : ScanState) (i : Nat),
      (s.inRetro = true → ∃ k, s.startIdx = some k ∧ k < i) →
      ∀ p ∈ (scanFlags s i l).1,
        i ≤ p.2 ∧
        l.getD (p.2 - i) true = false ∧
        (∀ j, i ≤ j → p.1 ≤ j → j < p.2 → l.getD (j - i) false = true) ∧
        (p.1 < i → s.inRetro = true ∧ s.startIdx = some p.1) ∧
        (i ≤ p.1 → l.getD (p.1 - i) false = true) := by
  induction l with
  | nil =>
    intro s i _ p hp
    simp [scanFlags] at hp
  | cons b rest ih =>
    intro s i hT p hp
    obtain ⟨r, idx⟩ := s
    cases b <;> cases r
    · -- b = false, inRetro = false: no transition
      have hstep : scanFlags ⟨false, idx⟩ i (false :: rest) =
          scanFlags ⟨false, idx⟩ (i + 1) rest := by
        simp [scanFlags]
      rw [hstep] at hp
      have IHp := ih ⟨false, idx⟩ (i + 1) (fun h => by simp at h) p hp
      obtain ⟨hA1, hA2, hB, hC, hD⟩ := IHp
      have hp1 : i + 1 ≤ p.1 := by
        by_contra hcon
        exact absurd (hC (by omega)).1 (by simp)
      refine ⟨by omega, ?_, ?_, ?_, ?_⟩
      · rw [getD_cons_sub _ _ _ _ _ (by omega)]; exact hA2
      · intro j hij hpj hjp
        rw [getD_cons_sub _ _ _ _ _ (by omega)]
        exact hB j (by omega) hpj hjp
      · intro h; omega
      · intro _
        rw [getD_cons_sub _ _ _ _ _ (by omega)]
        exact hD (by omega)
    · -- b = false, inRetro = true: emit (k, i)
      obtain ⟨k, hk1, hk2⟩ := hT rfl
      simp only at hk1
      subst hk1
      have hstep : scanFlags ⟨true, some k⟩ i (false :: rest) =
          ((k, i) :: (scanFlags ⟨false, some k⟩ (i + 1) rest).1,
            (scanFlags ⟨false, some k⟩ (i + 1) rest).2) := by
        simp [scanFlags]
      rw [hstep] at hp
      rcases List.mem_cons.mp hp with hh | hh
      · subst hh
        refine ⟨Nat.le_refl _, by rw [getD_cons_self], ?_, ?_, ?_⟩
        · intro j hij _ hjp
          omega
        · intro _; exact ⟨rfl, rfl⟩
        · intro h; omega
      · have IHp := ih ⟨false, some k⟩ (i + 1) (fun h => by simp at h) p hh
        obtain ⟨hA1, hA2, hB, hC, hD⟩ := IHp
        have hp1 : i + 1 ≤ p.1 := by
          by_contra hcon
          exact absurd (hC (by omega)).1 (by simp)
        refine ⟨by omega, ?_, ?_, ?_, ?_⟩
        · rw [getD_cons_sub _ _ _ _ _ (by omega)]; exact hA2
        · intro j hij hpj hjp
          rw [getD_cons_sub _ _ _ _ _ (by omega)]
          exact hB j (by omega) hpj hjp
        · intro h; omega
        · intro _
          rw [getD_cons_sub _ _ _ _ _ (by omega)]
          exact hD (by omega)
    · -- b = true, inRetro = false: record start at i
      have hstep : scanFlags ⟨false, idx⟩ i (true :: rest) =
          scanFlags ⟨true, some i⟩ (i + 1) rest := by
        simp [scanFlags]
      rw [hstep] at hp
      have IHp := ih ⟨true, some i⟩ (i + 1) (fun _ => ⟨i, rfl, by omega⟩) p hp
      obtain ⟨hA1, hA2, hB, hC, hD⟩ := IHp
      have hp1 : i ≤ p.1 := by
        by_contra hcon
        have h2 := (hC (by omega)).2
        simp only [Option.some.injEq] at h2
        omega
      refine ⟨by omega, ?_, ?_, ?_, ?_⟩
      · rw [getD_cons_sub _ _ _ _ _ (by omega)]; exact hA2
      · intro j hij hpj hjp
        rcases Nat.eq_or_lt_of_le hij with hje | hjl
        · rw [← hje, getD_cons_self]
        · rw [getD_cons_sub _ _ _ _ _ (by omega)]
          exact hB j (by omega) hpj hjp
      · intro h; omega
      · intro _
        rcases Nat.eq_or_lt_of_le hp1 with hpe | hpl
        · rw [← hpe, getD_cons_self]
        · rw [getD_cons_sub _ _ _ _ _ (by omega)]
          exact hD (by omega)
    · -- b = true, inRetro = true: run continues
      obtain ⟨k, hk1, hk2⟩ := hT rfl
      simp only at hk1
      subst hk1
      have hstep : scanFlags ⟨true, some k⟩ i (true :: rest) =
          scanFlags ⟨true, some k⟩ (i + 1) rest := by
        simp [scanFlags]
      rw [hstep] at hp
      have IHp := ih ⟨true, some k⟩ (i + 1) (fun _ => ⟨k, rfl, by omega⟩) p hp
      obtain ⟨hA1, hA2, hB, hC, hD⟩ := IHp
      refine ⟨by omega, ?_, ?_, ?_, ?_⟩
      · rw [getD_cons_sub _ _ _ _ _ (by omega)]; exact hA2
      · intro j hij hpj hjp
        rcases Nat.eq_or_lt_of_le hij with hje | hjl
        · rw [← hje, getD_cons_self]
        · rw [getD_cons_sub _ _ _ _ _ (by omega)]
          exact hB j (by omega) hpj hjp
      · intro h
        have h2 := (hC (by omega)).2
        exact ⟨rfl, h2⟩
      · intro hip
        rcases Nat.eq_or_lt_of_le hip with hpe | hpl
        · exfalso
          have h2 := (hC (by omega)).2
          simp only [Option.some.injEq] at h2
          omega
        · rw [getD_cons_sub _ _ _ _ _ (by omega)]
          exact hD (by omega)

theorem chunk_runs (lons : List ℚ) :
    ∀ p ∈ find_retrograde_periods_chunk lons,
      (is_retrograde lons).getD p.1 false = true ∧
      (is_retrograde lons).getD p.2 true = false ∧
      ∀ j, p.1 ≤ j → j < p.2 → (is_retrograde lons).getD j false = true := by
  intro p hp
  have H := scan_runs (is_retrograde lons) initState 0
    (fun h => by simp [initState] at h) p hp
  obtain ⟨hA1, hA2, hB, hC, hD⟩ := H
  refine ⟨?_, by simpa using hA2, ?_⟩
  · simpa using hD (Nat.zero_le _)
  · intro j h1 h2
    simpa using hB j (Nat.zero_le _) h1 h2

/-- Claim C4: the scan records the earlier pair index at a false-to-true
transition and emits at the following true-to-false index: every emitted pair
starts at a retrograde flag and ends at a non-retrograde flag, and for
longitudes 10, 12, 11, 9, 8, 10, 13 the scan emits exactly the interval from
sample 1 to sample 4 (timestamps `ts[1]` and `ts[4]`). -/
theorem claim_C4 :
    (∀ lons : List ℚ, ∀ p ∈ find_retrograde_periods_chunk lons,
        (is_retrograde lons).getD p.1 false = true ∧
        (is_retrograde lons).getD p.2 true = false) ∧
    is_retrograde [10, 12, 11, 9, 8, 10, 13] =
      [false, true, true, true, false, false] ∧
    find_retrograde_periods_chunk [10, 12, 11, 9, 8, 10, 13] = [(1, 4)] ∧
    ∀ ts : List ℚ,
      toIntervals ts (find_retrograde_periods_chunk [10, 12, 11, 9, 8, 10, 13]) =
        [(ts.getD 1 0, ts.getD 4 0)] := by
  refine ⟨?_, eval_flags_basic, eval_chunk_basic, ?_⟩
  · intro lons p hp
    have h := chunk_runs lons p hp
    exact ⟨h.1, h.2.1⟩
  · intro ts
    rw [eval_chunk_basic]
    rfl

/-- Witness for claim C4 at longitudes 10, 12, 11, 9, 8, 10, 13: the emitted
pair (1, 4) starts on a retrograde flag and ends on a non-retrograde flag. -/
theorem claim_C4_witness :
    (is_retrograde [10, 12, 11, 9, 8, 10, 13]).getD 1 false = true ∧
      (is_retrograde [10, 12, 11, 9, 8, 10, 13]).getD 4 true = false := by
  have hmem : ((1, 4) : Nat × Nat) ∈
      find_retrograde_periods_chunk [10, 12, 11, 9, 8, 10, 13] := by
    rw [claim_C4.2.2.1]
    exact List.mem_singleton.mpr rfl
  exact claim_C4.1 [10, 12, 11, 9, 8, 10, 13] (1, 4) hmem

/-- Claim C6: with strictly increasing timestamps, every emitted interval has
start timestamp strictly below end timestamp, and its end index is the first
non-retrograde flag after the run (all flags from the start index up to, but
not including, the end index are retrograde; the end flag is not). -/
theorem claim_C6 : ∀ (ts lons : List ℚ), List.Pairwise (· < ·) ts →
    lons.length = ts.length →
    ∀ p ∈ find_retrograde_periods_chunk lons,
      ts.getD p.1 0 < ts.getD p.2 0 ∧
      (is_retrograde lons).getD p.2 true = false ∧
      ∀ j, p.1 ≤ j → j < p.2 → (is_retrograde lons).getD j false = true := by
  intro ts lons hts hlen p hp
  have hb := (chunk_chainOK lons).2 p hp
  have hm := chainOK_mem _ _ (chunk_chainOK lons).1 p hp
  have hflag := is_retrograde_length lons
  have hruns := chunk_runs lons p hp
  exact ⟨pairwise_getD_lt ts hts p.1 p.2 hm.2 (by omega), hruns.2.1, hruns.2.2⟩

/-- Witness for claim C6 at identity timestamps 0..6 and longitudes
10, 12, 11, 9, 8, 10, 13: the emitted interval (1, 4) has strictly increasing
endpoint timestamps. -/
theorem claim_C6_witness :
    ([0, 1, 2, 3, 4, 5, 6] : List ℚ).getD 1 0 <
      ([0, 1, 2, 3, 4, 5, 6] : List ℚ).getD 4 0 :=
  (claim_C6 [0, 1, 2, 3, 4, 5, 6] [10, 12, 11, 9, 8, 10, 13] (by decide) rfl
    (1, 4) (by rw [eval_chunk_basic]; exact List.mem_singleton.mpr rfl)).1
